import Mathlib

/-!
Formal model of the geerpc RPC client (package `geerpc`, file `client.go`):
the `Call` / pending-call registry / `send` / `receive` machinery, option
parsing, the `Go` completion-channel setup, `Close`, and the HTTP CONNECT
tunnel check.

Modelling conventions:
* Go structs become Lean structures; mutation of a Go value through a pointer
  is modelled by returning the updated value and threading it explicitly.
* Go's `uint64` sequence counter is `Nat` reduced modulo `2 ^ 64` at the
  increment (`client.seq++`).
* Go errors are `Option String` (`none` = `nil`) or `Except String _`.
* The buffered `Done` channel of a `Call` is modelled by `doneSignals`, the
  number of completion signals delivered to it so far (`call.done()` performs
  `call.Done <- call`, i.e. delivers one signal).
* The Go map `pending map[uint64]*Call` is an association list with the usual
  map operations (assignment replaces, delete removes, lookup finds).
-/

namespace GeeRpc

/-- Modulus of Go `uint64` arithmetic. -/
def U64 : Nat := 2 ^ 64

/-- Go: `var ErrShutdown = errors.New("connection is shutdown")`. -/
def ErrShutdown : String := "connection is shutdown"

/-- Lookup in an association list keyed by `Nat`, modelling Go map indexing
`m[k]` (returning the zero value, here `none`, when absent). -/
def pLookup {α : Type} (p : List (Nat × α)) (s : Nat) : Option α :=
  (p.find? (fun e => e.1 == s)).map (fun e => e.2)

/-- Removal from the association list, modelling Go `delete(m, k)`. -/
def pRemove {α : Type} (p : List (Nat × α)) (s : Nat) : List (Nat × α) :=
  p.filter (fun e => !(e.1 == s))

/-- Map assignment `m[k] = v`: any previous binding of `k` is replaced. -/
def pInsert {α : Type} (p : List (Nat × α)) (s : Nat) (v : α) : List (Nat × α) :=
  (s, v) :: pRemove p s

/-- Go struct `Call`: one pending request/response unit.  `doneSignals` counts
the completion signals delivered on its `Done` channel; `doneCap` is that
channel's capacity. -/
structure Call where
  Seq : Nat
  ServiceMethod : String
  Error : Option String
  doneCap : Nat
  doneSignals : Nat
deriving Repr, DecidableEq

/-- Go: `func (call *Call) done() { call.Done <- call }` — delivers one
completion signal on the `Done` channel. -/
def Call.done (c : Call) : Call :=
  { c with doneSignals := c.doneSignals + 1 }

/-- The registry-and-flags part of the Go struct `Client`: `seq`, `pending`,
`closing`, `shutdown`.  The codec and the two mutexes are external effects /
scheduling, not data, and are handled at the call sites. -/
structure ClientState where
  seq : Nat
  pending : List (Nat × Call)
  closing : Bool
  shutdown : Bool
deriving Repr, DecidableEq

/-- A freshly constructed client registry (`newClientCodec`): `seq = 0`,
empty `pending`, both flags unset. -/
def initClient : ClientState :=
  { seq := 0, pending := [], closing := false, shutdown := false }

/-- Go `Client.registerCall`: under `mu`, fail with `ErrShutdown` when
`closing || shutdown`; otherwise set `call.Seq = client.seq`, insert the call
into `pending` under that key, increment `seq` (64-bit), and return the
sequence.  The updated call value is returned alongside, since Go mutates it
through the pointer. -/
def registerCall (st : ClientState) (call : Call) :
    ClientState × Except String (Nat × Call) :=
  if st.closing || st.shutdown then
    (st, .error ErrShutdown)
  else
    let call' := { call with Seq := st.seq }
    ({ st with pending := pInsert st.pending call'.Seq call',
               seq := (st.seq + 1) % U64 },
     .ok (call'.Seq, call'))

/-- Go `Client.removeCall`: under `mu`, read `pending[seq]`, delete the key,
return what was found (possibly `none`). -/
def removeCall (st : ClientState) (seq : Nat) : ClientState × Option Call :=
  ({ st with pending := pRemove st.pending seq }, pLookup st.pending seq)

/-- Go `Client.terminateCalls`: under `sending` and `mu`, set
`shutdown = true` and, for every call ranged over in `pending`, set its
`Error` to the cause and deliver its completion signal.  Note the source does
NOT delete the entries: the mapping keeps them (with the stored pointers'
targets mutated). -/
def terminateCalls (st : ClientState) (cause : String) : ClientState :=
  { st with
      shutdown := true,
      pending := st.pending.map
        (fun e => (e.1, Call.done { e.2 with Error := some cause })) }

/-- Go `Client.Close`: under `mu`, return `ErrShutdown` when already
`closing`; otherwise set `closing` and close the codec.  The codec's close
result is environment-supplied (`ccCloseErr`). -/
def Close (st : ClientState) (ccCloseErr : Option String) :
    ClientState × Option String :=
  if st.closing then (st, some ErrShutdown)
  else ({ st with closing := true }, ccCloseErr)

/-- Go `Client.IsAvailable`: neither `shutdown` nor `closing`. -/
def IsAvailable (st : ClientState) : Bool :=
  !st.shutdown && !st.closing

/-- Result of one run of Go `Client.send`: final registry state, the caller's
call object as send left it, and whether a codec write was attempted. -/
structure SendResult where
  state : ClientState
  call : Call
  wroteBytes : Bool
deriving Repr, DecidableEq

/-- Go `Client.send`: under `sending`, register the call; on registration
failure set `call.Error` and signal completion without writing.  Otherwise
write header+args (`writeErr` is the codec's  result); on write failure remove
the call by its sequence and, when still present, set its error and signal
completion. -/
def send (st : ClientState) (call : Call) (writeErr : Option String) :
    SendResult :=
  match registerCall st call with
  | (st1, .error e) => ⟨st1, Call.done { call with Error := some e }, false⟩
  | (st1, .ok (seq, call1)) =>
    match writeErr with
    | none => ⟨st1, call1, true⟩
    | some e =>
      match removeCall st1 seq with
      | (st2, none) => ⟨st2, call1, true⟩
      | (st2, some c) => ⟨st2, Call.done { c with Error := some e }, true⟩

/-- Outcome of the completion-channel setup in Go `Client.Go`. -/
inductive GoOutcome
  | panicked (msg : String)
  | ok (doneCap : Nat)
deriving Repr, DecidableEq

/-- The `done` channel handling at the top of Go `Client.Go`: a `nil` channel
(`none`) is replaced by `make(chan *Call, 10)`; a zero-capacity channel makes
`log.Panic` fire; any other channel is used as given. -/
def goDoneCapacity (done : Option Nat) : GoOutcome :=
  match done with
  | none => .ok 10
  | some 0 => .panicked "[Go] rpc client: done channel is unbuffered"
  | some n => .ok n

/-- Go struct `codec.Header`. -/
structure Header where
  ServiceMethod : String
  Seq : Nat
  Error : String
deriving Repr, DecidableEq

/-- One iteration of the body of Go `Client.receive` after a header was read
successfully: remove the call for `h.Seq`, then branch.  `bodyErr` is the
result of the one `ReadBody` performed in the taken branch.  Returns the new
state, the call signalled in this iteration (if any), and the loop variable
`err` (non-`none` makes the loop exit). -/
def receiveStep (st : ClientState) (h : Header) (bodyErr : Option String) :
    ClientState × Option Call × Option String :=
  match removeCall st h.Seq with
  | (st1, none) => (st1, none, bodyErr)
  | (st1, some call) =>
    if h.Error ≠ "" then
      (st1, some (Call.done { call with Error := some h.Error }), bodyErr)
    else
      match bodyErr with
      | none => (st1, some (Call.done call), none)
      | some e =>
        (st1, some (Call.done { call with Error := some ("reading body" ++ e) }),
         some e)

/-- One observable event of the inbound stream, as seen by `Client.receive`:
either the header read fails, or a header is read and the branch's `ReadBody`
returns `bodyErr`. -/
inductive RecvEvent
  | hdrFail (e : String)
  | msg (h : Header) (bodyErr : Option String)
deriving Repr, DecidableEq

/-- Result of running Go `Client.receive` over a list of inbound events:
final state, the calls signalled by loop iterations (in order), and the error
the loop exited with (`none` = input exhausted with the loop still looping).
When the loop exits with an error, `terminateCalls` runs with it. -/
structure ReceiveRun where
  state : ClientState
  signalled : List Call
  exitedWith : Option String
deriving Repr, DecidableEq

/-- Go `Client.receive`: loop while `err == nil`; a header-read failure breaks
out; otherwise one `receiveStep` runs and its `err` decides whether the loop
continues.  On exit, `terminateCalls err` runs. -/
def receiveRun (st : ClientState) : List RecvEvent → ReceiveRun
  | [] => ⟨st, [], none⟩
  | .hdrFail e :: _ => ⟨terminateCalls st e, [], some e⟩
  | .msg h bodyErr :: rest =>
    match receiveStep st h bodyErr with
    | (st1, sig, some e) => ⟨terminateCalls st1 e, sig.toList, some e⟩
    | (st1, sig, none) =>
      let r := receiveRun st1 rest
      ⟨r.state, sig.toList ++ r.signalled, r.exitedWith⟩

/-- The cancellation branch of Go `Client.Call` (`case <-ctx.Done()`): remove
the call by its `Seq` and return the wrapped context error. -/
def callCtxDone (st : ClientState) (call : Call) (ctxErr : String) :
    ClientState × String :=
  ((removeCall st call.Seq).1, "rpc client: call failed: " ++ ctxErr)

/-- Modelled from the spec: the fixed protocol magic number.  The constant
`MagicNumber` itself is declared in a repository file outside the visible
source (`server.go`); the spec fixes only that it is one fixed constant. -/
def MagicNumber : Nat := 0x3bef5c

/-- Modelled from the spec: the Go struct `Option` (declared outside the
visible source): magic number, codec kind, connect timeout (in nanoseconds;
the value is irrelevant to the claims here). -/
structure ClientOption where
  MagicNumber : Nat
  CodecType : String
  ConnectTimeout : Nat
deriving Repr, DecidableEq

/-- Modelled from the spec: `DefaultOption` (declared outside the visible
source): the fixed magic number and a default codec kind. -/
def DefaultOption : ClientOption :=
  { MagicNumber := MagicNumber, CodecType := "application/gob",
    ConnectTimeout := 10000000000 }

/-- The in-place update `parseOptions` performs on the caller-supplied
`*Option`: `opt.MagicNumber = DefaultOption.MagicNumber`, and if
`opt.CodecType == ""` also `opt.CodecType = DefaultOption.CodecType`.  The
result is the state of the caller's object after the call (Go mutates it
through the pointer and returns the same pointer). -/
def resolveOption (opt : ClientOption) : ClientOption :=
  let opt1 := { opt with MagicNumber := DefaultOption.MagicNumber }
  if opt1.CodecType = "" then
    { opt1 with CodecType := DefaultOption.CodecType }
  else opt1

/-- Go `parseOptions`: no options or a leading `nil` yields `DefaultOption`;
more than one option is an error; otherwise the single option is updated in
place (see `resolveOption`) and returned. -/
def parseOptions (options : List (Option ClientOption)) :
    Except String ClientOption :=
  match options with
  | [] => .ok DefaultOption
  | none :: _ => .ok DefaultOption
  | some opt :: rest =>
    if rest.length != 0 then
      .error "[parseOptions] number of options is more than 1"
    else .ok (resolveOption opt)

/-- A caller-supplied option whose magic number differs from the fixed
constant. -/
def optX : ClientOption :=
  { MagicNumber := 0, CodecType := "application/json", ConnectTimeout := 5 }

/-- Modelled from the spec: the fixed "connected" status line (the constant
`connected` is declared outside the visible source; only its being one fixed
string matters). -/
def connected : String := "200 Connected to Gee RPC"

/-- Outcome of the tunnel check in Go `NewHTTPClient`. -/
inductive HTTPDialResult
  | proceedHandshake
  | failed (err : String)
deriving Repr, DecidableEq

/-- The decision logic of Go `NewHTTPClient` after writing the CONNECT line:
`resp` is the result of `http.ReadResponse` (`.ok status` on success).  When
the read succeeded and the status equals `connected`, proceed to `NewClient`
(the normal handshake); when the read succeeded with any other status, fail
with the protocol error naming the status; otherwise propagate the read
error. -/
def newHTTPClientCheck (resp : Except String String) : HTTPDialResult :=
  match resp with
  | .ok status =>
    if status = connected then .proceedHandshake
    else .failed ("unexpected HTTP response: " ++ status)
  | .error e => .failed e

/-- A fixed call value used to drive registration runs. -/
def dummyCall : Call :=
  { Seq := 0, ServiceMethod := "Foo.Sum", Error := none,
    doneCap := 1, doneSignals := 0 }

/-- A registry state holding one pending call, sequence 0 (as after one
successful registration whose write succeeded). -/
def pendingOne : ClientState :=
  { seq := 1, pending := [(0, dummyCall)], closing := false, shutdown := false }

/-- A registry state holding two pending calls, sequences 0 and 1. -/
def pendingTwo : ClientState :=
  { seq := 2, pending := [(0, dummyCall), (1, { dummyCall with Seq := 1 })],
    closing := false, shutdown := false }

/-- The registry state after `n` calls to `registerCall` on a fresh client. -/
def regClient : Nat → ClientState
  | 0 => initClient
  | n + 1 => (registerCall (regClient n) dummyCall).1

/-- The sequence number returned by the `(n+1)`-st registration on a fresh
client (`none` if that registration failed). -/
def returnedSeq (n : Nat) : Option Nat :=
  match (registerCall (regClient n) dummyCall).2 with
  | .ok (s, _) => some s
  | .error _ => none

/-!
Interleaving model of one client under concurrent `send`s, the single
`receive` goroutine, `Call`-level cancellation and `Close`.  Each action is
one lock-protected atomic block of `client.go`; `valid` encodes which actions
the locks and the single receive thread permit in a given state.  Calls are
identified by `Nat` ids.  The `uint64` sequence counter wraps modulo `2 ^ 64`
at the increment, exactly as `client.seq++` and `registerCall` above; the
completion-counting theorems are therefore stated for runs of fewer than
`2 ^ 64` actions, where the counter cannot wrap — at the wrap the reused key
overwrites a pending entry (see the `registerCall` analysis) and the
overwritten call is never signalled.
-/

namespace Trace

/-- Global interleaving state: the registry (`seq`, `pending` mapping sequence
numbers to call ids, `closing`, `shutdown`) plus, per call id, its `Seq`
field, its progress through `send` (`regState`: 0 = not submitted, 1 =
registration failed, 2 = registered with the codec write still in flight, 3 =
send finished), the number of completion signals delivered on its `Done`
channel, and whether some cancellation removed it from `pending`; plus the
`sending` lock holder, whether the receive loop is still looping, and whether
`terminateCalls` has run. -/
structure GState where
  seq : Nat
  pending : List (Nat × Nat)
  closing : Bool
  shutdown : Bool
  callSeq : Nat → Nat
  regState : Nat → Nat
  doneCount : Nat → Nat
  cancelled : Nat → Bool
  removedByCancel : Nat → Bool
  sendingHeld : Option Nat
  recvAlive : Bool
  termDone : Bool

/-- Pointwise update of a per-call-id map. -/
def upd {α : Type} (f : Nat → α) (k : Nat) (v : α) : Nat → α :=
  fun x => if x = k then v else f x

/-- The state of a freshly created client engine. -/
def initG : GState :=
  { seq := 0, pending := [], closing := false, shutdown := false,
    callSeq := fun _ => 0, regState := fun _ => 0, doneCount := fun _ => 0,
    cancelled := fun _ => false, removedByCancel := fun _ => false,
    sendingHeld := none, recvAlive := true, termDone := false }

/-- Atomic actions: `areg c` = `send`'s `registerCall` for call `c` (acquires
`sending`); `awrite c ok` = the codec write of `c`'s request and the release
of `sending`; `arecv s remoteErr bodyOk` = one receive-loop iteration whose
header carries sequence `s` (`remoteErr` = non-empty header error string,
`bodyOk` = the branch's `ReadBody` succeeded); `ahdrfail` = the header read
failed, the loop exits; `aterm` = `terminateCalls` (acquires `sending`);
`acancel c` = the `<-ctx.Done()` branch of `Client.Call` for `c`;
`aclose` = `Client.Close`. -/
inductive Act
  | areg (c : Nat)
  | awrite (c : Nat) (ok : Bool)
  | arecv (s : Nat) (remoteErr : Bool) (bodyOk : Bool)
  | ahdrfail
  | aterm
  | acancel (c : Nat)
  | aclose
deriving Repr, DecidableEq

/-- Which actions the locks and thread structure permit: a registration needs
the `sending` lock free and a call not yet submitted; the write is done by
the `sending` holder; receive-loop iterations and the header-read failure
need the loop alive; `terminateCalls` runs once, after the loop exited, and
needs `sending`; cancellation happens in `Client.Call` after `Go` returned
(send complete, `regState` 1 or 3) and at most once per call. -/
def valid (g : GState) : Act → Bool
  | .areg c => g.regState c == 0 && g.sendingHeld == none
  | .awrite c _ => g.sendingHeld == some c
  | .arecv _ _ _ => g.recvAlive
  | .ahdrfail => g.recvAlive
  | .aterm => !g.recvAlive && !g.termDone && g.sendingHeld == none
  | .acancel c => (g.regState c == 1 || g.regState c == 3) && !g.cancelled c
  | .aclose => true

/-- Effect of one atomic action, straight from `client.go`:
`areg` is `registerCall` (failure signals the call immediately;
success assigns the sequence, inserts, increments, and keeps `sending` for the
write); `awrite` releases `sending` and on failure removes the call by its
sequence, signalling it when still present; `arecv` is one loop iteration
(`removeCall` by header sequence, signal when found; the loop stays alive iff
the branch's body read succeeded); `ahdrfail` exits the loop; `aterm` sets
`shutdown`, signals every call ranged over in `pending`, and does NOT clear
the mapping; `acancel` removes the entry at the call's `Seq` field;
`aclose` sets `closing` (idempotent refusal aside). -/
def step (g : GState) : Act → GState
  | .areg c =>
    if g.closing || g.shutdown then
      { g with regState := upd g.regState c 1,
               doneCount := upd g.doneCount c (g.doneCount c + 1) }
    else
      { g with callSeq := upd g.callSeq c g.seq,
               pending := pInsert g.pending g.seq c,
               seq := (g.seq + 1) % U64,
               regState := upd g.regState c 2,
               sendingHeld := some c }
  | .awrite c ok =>
    let g1 := { g with sendingHeld := none, regState := upd g.regState c 3 }
    if ok then g1
    else
      match pLookup g.pending (g.callSeq c) with
      | none => { g1 with pending := pRemove g.pending (g.callSeq c) }
      | some b =>
        { g1 with pending := pRemove g.pending (g.callSeq c),
                  doneCount := upd g1.doneCount b (g1.doneCount b + 1) }
  | .arecv s _ bodyOk =>
    match pLookup g.pending s with
    | none => { g with pending := pRemove g.pending s, recvAlive := bodyOk }
    | some b =>
      { g with pending := pRemove g.pending s,
               doneCount := upd g.doneCount b (g.doneCount b + 1),
               recvAlive := bodyOk }
  | .ahdrfail => { g with recvAlive := false }
  | .aterm =>
    { g with shutdown := true, termDone := true,
             doneCount := fun c =>
               g.doneCount c + g.pending.countP (fun e => e.2 == c) }
  | .acancel c =>
    match pLookup g.pending (g.callSeq c) with
    | none =>
      { g with cancelled := upd g.cancelled c true,
               pending := pRemove g.pending (g.callSeq c) }
    | some b =>
      { g with cancelled := upd g.cancelled c true,
               pending := pRemove g.pending (g.callSeq c),
               removedByCancel := upd g.removedByCancel b true }
  | .aclose => if g.closing then g else { g with closing := true }

/-- A whole interleaving is valid when every action is permitted in the state
it fires in. -/
def ValidFrom (g : GState) : List Act → Bool
  | [] => true
  | a :: as => valid g a && ValidFrom (step g a) as

/-- The state after executing an interleaving. -/
def run (g : GState) (as : List Act) : GState :=
  as.foldl step g

/-- The inductive invariant of the interleaving model.  The completion
bookkeeping (`phase0`/`phase1`/`phase2`) is the heart: an unsubmitted call
has no signals and is not pending; a call whose registration failed has
exactly one signal; a registered call is either still pending with no signal
(one signal once `terminateCalls` ran — the entries stay in the mapping), or
was removed by a cancellation (at most one signal, possibly zero), or was
removed by a response / write failure and has exactly one signal. -/
structure Inv (g : GState) : Prop where
  keyLt : ∀ e ∈ g.pending, e.1 < g.seq
  keyPW : g.pending.Pairwise (fun a b => a.1 ≠ b.1)
  entries : ∀ e ∈ g.pending, 2 ≤ g.regState e.2 ∧ g.callSeq e.2 = e.1
  seqLt : ∀ c, 2 ≤ g.regState c → g.callSeq c < g.seq
  seqInj : ∀ c d, 2 ≤ g.regState c → 2 ≤ g.regState d →
    g.callSeq c = g.callSeq d → c = d
  sendReg : ∀ c, g.sendingHeld = some c → g.regState c = 2
  regSend : ∀ c, g.regState c = 2 → g.sendingHeld = some c
  termNoWrite : g.termDone = true → ∀ c, g.regState c ≠ 2
  shutTerm : g.shutdown = g.termDone
  termRecv : g.termDone = true → g.recvAlive = false
  phase0 : ∀ c, g.regState c = 0 →
    g.doneCount c = 0 ∧ g.removedByCancel c = false ∧ ∀ e ∈ g.pending, e.2 ≠ c
  phase1 : ∀ c, g.regState c = 1 →
    g.doneCount c = 1 ∧ g.removedByCancel c = false ∧ ∀ e ∈ g.pending, e.2 ≠ c
  phase2 : ∀ c, 2 ≤ g.regState c →
    ((g.callSeq c, c) ∈ g.pending ∧ g.removedByCancel c = false ∧
        g.doneCount c = (if g.termDone then 1 else 0)) ∨
    ((g.callSeq c, c) ∉ g.pending ∧ g.removedByCancel c = true ∧
        g.doneCount c ≤ 1) ∨
    ((g.callSeq c, c) ∉ g.pending ∧ g.removedByCancel c = false ∧
        g.doneCount c = 1)

end Trace

end GeeRpc


/-!  Helper lemmas about the association-list map operations. -/

namespace GeeRpc

theorem mem_pRemove {α : Type} {p : List (Nat × α)} {s : Nat} {e : Nat × α} :
    e ∈ pRemove p s ↔ e ∈ p ∧ e.1 ≠ s := by
  simp [pRemove, List.mem_filter]

theorem pLookup_eq_none {α : Type} {p : List (Nat × α)} {s : Nat} :
    pLookup p s = none ↔ ∀ e ∈ p, e.1 ≠ s := by
  simp [pLookup, List.find?_eq_none]

theorem pLookup_some_mem {α : Type} {p : List (Nat × α)} {s : Nat} {v : α}
    (h : pLookup p s = some v) : (s, v) ∈ p := by
  unfold pLookup at h
  cases hf : p.find? (fun e => e.1 == s) with
  | none => rw [hf] at h; simp at h
  | some e =>
    have hm := List.mem_of_find?_eq_some hf
    have hp := List.find?_some hf
    rw [hf] at h
    simp only [Option.map_some'] at h
    obtain ⟨e1, e2⟩ := e
    simp only [beq_iff_eq] at hp
    cases h
    cases hp
    exact hm

theorem pRemove_eq_of_lookup_none {α : Type} {p : List (Nat × α)} {s : Nat}
    (h : pLookup p s = none) : pRemove p s = p := by
  rw [pLookup_eq_none] at h
  induction p with
  | nil => rfl
  | cons e t ih =>
    have he : ¬(e.1 == s) = true := by
      simp only [beq_iff_eq]
      exact h e (List.mem_cons_self e t)
    have ht : pRemove t s = t :=
      ih (fun x hx => h x (List.mem_cons_of_mem _ hx))
    simp only [pRemove, List.filter_cons] at ht ⊢
    simp [he, ht]

end GeeRpc

namespace GeeRpc

/-- A fresh, never-closed client stays open across registrations, and its
counter after `n` registrations is `n` reduced modulo `2 ^ 64`. -/
theorem regClient_spec (n : Nat) :
    (regClient n).closing = false ∧ (regClient n).shutdown = false ∧
      (regClient n).seq = n % U64 := by
  have hU : U64 = 18446744073709551616 := by norm_num [U64]
  induction n with
  | zero =>
    refine ⟨rfl, rfl, ?_⟩
    simp [regClient, initClient]
  | succ n ih =>
    obtain ⟨h1, h2, h3⟩ := ih
    have hmod : ((n % U64) + 1) % U64 = (n + 1) % U64 := by
      rw [hU]; omega
    refine ⟨?_, ?_, ?_⟩ <;>
      simp [regClient, registerCall, h1, h2, h3, hmod]

/-- The sequence returned by the `(n+1)`-st registration on a fresh client is
`n % 2 ^ 64`. -/
theorem returnedSeq_eq (n : Nat) : returnedSeq n = some (n % U64) := by
  obtain ⟨h1, h2, h3⟩ := regClient_spec n
  simp [returnedSeq, registerCall, h1, h2, h3]

/-- C2, counterexample: the claim promises that sequence numbers returned by
successful registrations of one engine instance are unique, strictly
increasing and never reused, with no bound.  But the counter is a Go
`uint64`: on a fresh client the registration at index 0 and the (distinct,
also successful) registration at index `2 ^ 64` both return sequence 0 — the
sequence is reused and the returned values are not strictly increasing. -/
theorem C2_counterexample :
    returnedSeq 0 = some 0 ∧ returnedSeq U64 = some 0 ∧ 0 ≠ U64 := by
  refine ⟨?_, ?_, ?_⟩
  · rw [returnedSeq_eq]; norm_num
  · rw [returnedSeq_eq, Nat.mod_self]
  · norm_num [U64]

/-- C2 (amended): `registerCall` fails with `ErrShutdown` and mutates nothing
when `closing` or `shutdown` is set; otherwise it assigns the current counter
value to the call, inserts it under that key, increments the 64-bit counter
and returns the sequence.  Consequently the sequences returned by successful
registrations on a fresh engine are `0, 1, 2, …`, unique and strictly
increasing, for the first `2 ^ 64` registrations (afterwards the `uint64`
counter wraps and sequence numbers are reused). -/
theorem C2_register_amended :
    (∀ st call, st.closing = true ∨ st.shutdown = true →
        registerCall st call = (st, .error ErrShutdown)) ∧
    (∀ st call, st.closing = false → st.shutdown = false →
        registerCall st call =
          ({ st with
               pending := pInsert st.pending st.seq { call with Seq := st.seq },
               seq := (st.seq + 1) % U64 },
           .ok (st.seq, { call with Seq := st.seq }))) ∧
    (∀ n, n < U64 → returnedSeq n = some n) ∧
    (∀ i j, i < j → j < U64 →
        ∃ si sj, returnedSeq i = some si ∧ returnedSeq j = some sj ∧ si < sj) := by
  refine ⟨?_, ?_, ?_, ?_⟩
  · rintro st call (h | h) <;> simp [registerCall, h]
  · intro st call h1 h2
    simp [registerCall, h1, h2]
  · intro n hn
    rw [returnedSeq_eq, Nat.mod_eq_of_lt hn]
  · intro i j hij hj
    refine ⟨i, j, ?_, ?_, hij⟩
    · rw [returnedSeq_eq, Nat.mod_eq_of_lt (lt_trans hij hj)]
    · rw [returnedSeq_eq, Nat.mod_eq_of_lt hj]

/-- Witness for `C2_register_amended` at concrete inputs. -/
theorem C2_register_amended_witness :
    registerCall { seq := 5, pending := [], closing := true, shutdown := false }
        dummyCall =
      ({ seq := 5, pending := [], closing := true, shutdown := false },
       .error ErrShutdown) ∧
    returnedSeq 2 = some 2 := by
  exact ⟨C2_register_amended.1 _ dummyCall (Or.inl rfl),
    C2_register_amended.2.2.1 2 (by norm_num [U64])⟩

/-- C3, counterexample: the claim says that after `terminateAll` the pending
mapping is empty (cleared).  On a registry holding one pending call,
`terminateCalls` leaves the mapping non-empty: the source never deletes the
entries. -/
theorem C3_counterexample :
    (terminateCalls pendingOne "read error").pending ≠ [] := by decide

/-- C3 (amended): `terminateCalls cause` sets `shutdown`, sets every pending
call's error to `cause` and delivers its completion signal, and keeps the
mapping's entries (same keys, in particular empty only if it was empty
before) — it does not clear the mapping. -/
theorem C3_terminateCalls_amended (st : ClientState) (cause : String) :
    (terminateCalls st cause).shutdown = true ∧
    (terminateCalls st cause).pending.map Prod.fst = st.pending.map Prod.fst ∧
    (∀ e ∈ st.pending,
        (e.1, Call.done { e.2 with Error := some cause }) ∈
          (terminateCalls st cause).pending) ∧
    (∀ e ∈ (terminateCalls st cause).pending,
        e.2.Error = some cause ∧ 1 ≤ e.2.doneSignals) ∧
    ((terminateCalls st cause).pending = [] ↔ st.pending = []) := by
  refine ⟨rfl, ?_, ?_, ?_, ?_⟩
  · simp [terminateCalls, List.map_map]
  · intro e he
    exact List.mem_map_of_mem _ he
  · intro e he
    simp only [terminateCalls, List.mem_map] at he
    obtain ⟨a, _, rfl⟩ := he
    simp [Call.done]
  · simp [terminateCalls]

/-- Witness for `C3_terminateCalls_amended` at a concrete registry. -/
theorem C3_terminateCalls_amended_witness :
    (terminateCalls pendingOne "boom").shutdown = true ∧
    (0, Call.done { dummyCall with Error := some "boom" }) ∈
      (terminateCalls pendingOne "boom").pending := by
  refine ⟨(C3_terminateCalls_amended pendingOne "boom").1, ?_⟩
  exact (C3_terminateCalls_amended pendingOne "boom").2.2.1 (0, dummyCall)
    (by decide)

end GeeRpc

namespace GeeRpc

theorem pLookup_pInsert_self {α : Type} (p : List (Nat × α)) (s : Nat) (v : α) :
    pLookup (pInsert p s v) s = some v := by
  simp [pInsert, pLookup, List.find?_cons]

theorem pRemove_pInsert {α : Type} (p : List (Nat × α)) (s : Nat) (v : α) :
    pRemove (pInsert p s v) s = pRemove p s := by
  simp only [pInsert, pRemove, List.filter_cons]
  simp [List.filter_filter]

theorem pLookup_pRemove_self {α : Type} (p : List (Nat × α)) (s : Nat) :
    pLookup (pRemove p s) s = none := by
  rw [pLookup_eq_none]
  intro e he
  exact (mem_pRemove.1 he).2

/-- The loop variable `err` produced by one receive iteration is exactly the
result of the `ReadBody` performed in the taken branch. -/
theorem receiveStep_err (st : ClientState) (h : Header)
    (bodyErr : Option String) : (receiveStep st h bodyErr).2.2 = bodyErr := by
  rcases hl : pLookup st.pending h.Seq with _ | call
  · simp [receiveStep, removeCall, hl]
  · simp only [receiveStep, removeCall, hl]
    by_cases he : h.Error = ""
    · cases bodyErr <;> simp [he]
    · simp [he]

/-- The receive loop is still looping after processing `evs` iff every event
was a successfully read header whose branch's body read also succeeded. -/
theorem receiveRun_exitedWith_none (st : ClientState) (evs : List RecvEvent) :
    (receiveRun st evs).exitedWith = none ↔
      ∀ ev ∈ evs, ∃ h, ev = RecvEvent.msg h none := by
  induction evs generalizing st with
  | nil => simp [receiveRun]
  | cons ev rest ih =>
    cases ev with
    | hdrFail e => simp [receiveRun]
    | msg h bodyErr =>
      have herr := receiveStep_err st h bodyErr
      rcases hrs : receiveStep st h bodyErr with ⟨st1, sig, err⟩
      rw [hrs] at herr
      simp only at herr
      subst herr
      cases err with
      | some e => simp [receiveRun, hrs]
      | none => simp [receiveRun, hrs, ih st1]

end GeeRpc

namespace GeeRpc

/-- C4, counterexample: the claim says the inbound dispatch loop exits if and
only if reading a Header fails, and that a failure decoding a response body
resolves only that Call while the loop keeps running.  With two pending calls
and a single successfully-read header for sequence 0 whose body read fails
("EOF"), the loop exits without any header-read failure, `terminateCalls`
runs, and the unrelated call with sequence 1 is also resolved with the body
error. -/
theorem C4_counterexample :
    (receiveRun pendingTwo
        [.msg { ServiceMethod := "Foo.Sum", Seq := 0, Error := "" }
          (some "EOF")]).exitedWith = some "EOF" ∧
    (receiveRun pendingTwo
        [.msg { ServiceMethod := "Foo.Sum", Seq := 0, Error := "" }
          (some "EOF")]).state.shutdown = true ∧
    pLookup (receiveRun pendingTwo
        [.msg { ServiceMethod := "Foo.Sum", Seq := 0, Error := "" }
          (some "EOF")]).state.pending 1 =
      some (Call.done { dummyCall with Seq := 1, Error := some "EOF" }) := by
  decide

/-- C4 (amended): the dispatch loop exits iff reading a Header fails OR any
body read fails: a header-read failure terminates all pending calls with that
error, and a failure decoding a response body into a Call's reply slot is
recorded as that Call's error and the Call is signalled — but the loop then
also exits and terminates the remaining pending calls with the body error. -/
theorem C4_receive_amended :
    (∀ st evs, (receiveRun st evs).exitedWith = none ↔
        ∀ ev ∈ evs, ∃ h, ev = RecvEvent.msg h none) ∧
    (∀ st e rest,
        receiveRun st (.hdrFail e :: rest) =
          ⟨terminateCalls st e, [], some e⟩) ∧
    (∀ st h e rest call, h.Error = "" →
        pLookup st.pending h.Seq = some call →
        receiveRun st (.msg h (some e) :: rest) =
          ⟨terminateCalls { st with pending := pRemove st.pending h.Seq } e,
           [Call.done { call with Error := some ("reading body" ++ e) }],
           some e⟩) := by
  refine ⟨receiveRun_exitedWith_none, fun st e rest => rfl, ?_⟩
  intro st h e rest call hE hl
  simp [receiveRun, receiveStep, removeCall, hl, hE]

/-- Witness for `C4_receive_amended` at concrete inputs. -/
theorem C4_receive_amended_witness :
    receiveRun pendingOne
        [.msg { ServiceMethod := "Foo.Sum", Seq := 0, Error := "" }
          (some "EOF")] =
      ⟨terminateCalls { pendingOne with pending := pRemove pendingOne.pending 0 }
         "EOF",
       [Call.done { dummyCall with Error := some ("reading body" ++ "EOF") }],
       some "EOF"⟩ ∧
    (receiveRun pendingOne []).exitedWith = none := by
  constructor
  · exact C4_receive_amended.2.2 pendingOne
      { ServiceMethod := "Foo.Sum", Seq := 0, Error := "" } "EOF" [] dummyCall
      rfl (by decide)
  · exact (C4_receive_amended.1 pendingOne []).2 (by simp)

/-- C5: in the serialized send path, a registration failure (shutdown)
completes the Call immediately with `ErrShutdown`, writes no bytes and leaves
the registry untouched; a write failure after successful registration removes
the Call from the pending registry (its sequence is no longer mapped) and
completes it with the write error. -/
theorem C5_send (st : ClientState) (call : Call) :
    (st.closing = true ∨ st.shutdown = true →
      ∀ writeErr, send st call writeErr =
        ⟨st, Call.done { call with Error := some ErrShutdown }, false⟩) ∧
    (st.closing = false → st.shutdown = false → ∀ e,
      (send st call (some e)).call =
          Call.done { call with Seq := st.seq, Error := some e } ∧
      pLookup (send st call (some e)).state.pending st.seq = none ∧
      (send st call (some e)).state.pending = pRemove st.pending st.seq ∧
      (send st call (some e)).call.doneSignals = call.doneSignals + 1) := by
  constructor
  · rintro (h | h) writeErr <;> simp [send, registerCall, h]
  · intro h1 h2 e
    have hreg : registerCall st call =
        ({ st with
             pending := pInsert st.pending st.seq { call with Seq := st.seq },
             seq := (st.seq + 1) % U64 },
         .ok (st.seq, { call with Seq := st.seq })) := by
      simp [registerCall, h1, h2]
    refine ⟨?_, ?_, ?_, ?_⟩ <;>
      simp [send, hreg, removeCall, pLookup_pInsert_self, pRemove_pInsert,
        pLookup_pRemove_self, Call.done]

/-- Witness for `C5_send` at concrete inputs. -/
theorem C5_send_witness :
    send { seq := 0, pending := [], closing := true, shutdown := false }
        dummyCall none =
      ⟨{ seq := 0, pending := [], closing := true, shutdown := false },
       Call.done { dummyCall with Error := some ErrShutdown }, false⟩ ∧
    (send initClient dummyCall (some "broken pipe")).call =
      Call.done { dummyCall with Seq := 0, Error := some "broken pipe" } ∧
    pLookup (send initClient dummyCall (some "broken pipe")).state.pending 0 =
      none := by
  refine ⟨(C5_send _ dummyCall).1 (Or.inl rfl) none, ?_, ?_⟩
  · exact ((C5_send initClient dummyCall).2 rfl rfl "broken pipe").1
  · exact ((C5_send initClient dummyCall).2 rfl rfl "broken pipe").2.1

/-- C6: when the cancellation token fires, the Call is removed from the
registry and `Call` returns the wrapped cancellation error; a response
arriving later for the removed sequence is drained by the dispatch loop with
no state change at all — no pending call is touched, no completion signal is
delivered, the loop keeps running, and the cancelled Call's outcome stays the
cancellation error rather than the late response. -/
theorem C6_cancel (st : ClientState) (call : Call) (ctxErr : String)
    (hreg : pLookup st.pending call.Seq = some call) :
    (removeCall st call.Seq).2 = some call ∧
    (callCtxDone st call ctxErr).2 = "rpc client: call failed: " ++ ctxErr ∧
    pLookup (callCtxDone st call ctxErr).1.pending call.Seq = none ∧
    (∀ h : Header, h.Seq = call.Seq →
        receiveStep (callCtxDone st call ctxErr).1 h none =
          ((callCtxDone st call ctxErr).1, none, none)) := by
  refine ⟨hreg, rfl, ?_, ?_⟩
  · simp [callCtxDone, removeCall, pLookup_pRemove_self]
  · intro h hs
    have hnone :
        pLookup (callCtxDone st call ctxErr).1.pending h.Seq = none := by
      rw [hs]
      simp [callCtxDone, removeCall, pLookup_pRemove_self]
    have hsame :
        pRemove (callCtxDone st call ctxErr).1.pending h.Seq =
          (callCtxDone st call ctxErr).1.pending :=
      pRemove_eq_of_lookup_none hnone
    simp [receiveStep, removeCall, hnone, hsame]

/-- Witness for `C6_cancel` at a concrete registry. -/
theorem C6_cancel_witness :
    (removeCall pendingOne 0).2 = some dummyCall ∧
    (callCtxDone pendingOne dummyCall "context canceled").2 =
      "rpc client: call failed: context canceled" ∧
    pLookup (callCtxDone pendingOne dummyCall "context canceled").1.pending 0 =
      none ∧
    receiveStep (callCtxDone pendingOne dummyCall "context canceled").1
        { ServiceMethod := "Foo.Sum", Seq := 0, Error := "" } none =
      ((callCtxDone pendingOne dummyCall "context canceled").1, none, none) := by
  have h := C6_cancel pendingOne dummyCall "context canceled" (by decide)
  exact ⟨h.1, h.2.1, h.2.2.1,
    h.2.2.2 { ServiceMethod := "Foo.Sum", Seq := 0, Error := "" } rfl⟩

/-- C7: `Close` on an already-closing client returns `ErrShutdown` without
mutation; otherwise it sets `closing` and returns the codec's close result.
After any `Close`, a second `Close` returns `ErrShutdown`, and any subsequent
send completes the call immediately with `ErrShutdown` without writing any
bytes. -/
theorem C7_close (st : ClientState) (e1 e2 : Option String) (call : Call)
    (writeErr : Option String) :
    (st.closing = true → Close st e1 = (st, some ErrShutdown)) ∧
    (st.closing = false → Close st e1 = ({ st with closing := true }, e1)) ∧
    (Close (Close st e1).1 e2).2 = some ErrShutdown ∧
    send (Close st e1).1 call writeErr =
      ⟨(Close st e1).1, Call.done { call with Error := some ErrShutdown },
       false⟩ := by
  refine ⟨fun h => by simp [Close, h], fun h => by simp [Close, h], ?_, ?_⟩
  · by_cases h : st.closing <;> simp [Close, h]
  · by_cases h : st.closing <;> simp [Close, h, send, registerCall]

/-- Witness for `C7_close` at concrete inputs. -/
theorem C7_close_witness :
    Close initClient none = ({ initClient with closing := true }, none) ∧
    (Close (Close initClient none).1 none).2 = some ErrShutdown ∧
    send (Close initClient none).1 dummyCall none =
      ⟨(Close initClient none).1,
       Call.done { dummyCall with Error := some ErrShutdown }, false⟩ := by
  have h := C7_close initClient none none dummyCall none
  exact ⟨h.2.1 rfl, h.2.2.1, h.2.2.2⟩

/-- C8, counterexample: the claim says an absent completion queue is replaced
by a bounded queue of capacity 1 by default; `Go` actually creates
`make(chan *Call, 10)` — capacity 10, not 1. -/
theorem C8_counterexample :
    goDoneCapacity none = .ok 10 ∧ GoOutcome.ok 10 ≠ GoOutcome.ok 1 := by
  decide

/-- C8 (amended): an absent (`nil`) completion queue is replaced by a bounded
queue of capacity 10; a caller-supplied queue of zero capacity fails fast
(`log.Panic`) as a configuration error; a caller-supplied queue of capacity
at least 1 is used as given. -/
theorem C8_go_amended :
    goDoneCapacity none = .ok 10 ∧
    goDoneCapacity (some 0) =
      .panicked "[Go] rpc client: done channel is unbuffered" ∧
    (∀ n, goDoneCapacity (some (n + 1)) = .ok (n + 1)) := by
  exact ⟨rfl, rfl, fun n => rfl⟩

/-- C9, counterexample: the claim says resolving the effective Option leaves
every field of the caller-supplied Option unchanged.  `parseOptions` mutates
the caller's object in place through the pointer: for a supplied Option with
a non-default magic number, the object's `MagicNumber` field differs after
the call. -/
theorem C9_counterexample :
    parseOptions [some optX] = .ok (resolveOption optX) ∧
    resolveOption optX ≠ optX := by
  exact ⟨rfl, by decide⟩

/-- C9 (amended): option resolution overwrites the caller-supplied Option's
magic number with the fixed constant and defaults an empty codec kind, in
place; the connect timeout is never touched, and the caller's object is left
entirely unchanged iff its magic number already was the constant and its
codec kind was non-empty. -/
theorem C9_parseOptions_amended (opt : ClientOption) :
    (resolveOption opt).ConnectTimeout = opt.ConnectTimeout ∧
    (resolveOption opt).MagicNumber = DefaultOption.MagicNumber ∧
    (resolveOption opt = opt ↔
      opt.MagicNumber = DefaultOption.MagicNumber ∧ opt.CodecType ≠ "") ∧
    parseOptions [some opt] = .ok (resolveOption opt) := by
  obtain ⟨m, c, t⟩ := opt
  by_cases hc : c = ""
  · subst hc
    refine ⟨by simp [resolveOption], by simp [resolveOption], ?_, rfl⟩
    constructor
    · intro h
      have h2 : (resolveOption ⟨m, "", t⟩).CodecType = "" := by rw [h]
      simp [resolveOption, DefaultOption] at h2
    · rintro ⟨-, h2⟩
      exact absurd rfl h2
  · refine ⟨by simp [resolveOption, hc], by simp [resolveOption, hc], ?_, rfl⟩
    constructor
    · intro h
      have h2 : (resolveOption ⟨m, c, t⟩).MagicNumber = m := by rw [h]
      simp [resolveOption, hc] at h2
      exact ⟨h2.symm, hc⟩
    · rintro ⟨h1, -⟩
      simp only at h1
      simp [resolveOption, hc, h1]

/-- C10: the HTTP-tunnel dial proceeds to the normal handshake iff the parsed
response's status equals the fixed "connected" status; any other successfully
parsed status fails with the protocol error carrying the actual status
text. -/
theorem C10_httpTunnel (resp : Except String String) :
    (newHTTPClientCheck resp = .proceedHandshake ↔ resp = .ok connected) ∧
    (∀ s, s ≠ connected →
        newHTTPClientCheck (.ok s) =
          .failed ("unexpected HTTP response: " ++ s)) := by
  constructor
  · cases resp with
    | ok s => by_cases hs : s = connected <;> simp [newHTTPClientCheck, hs]
    | error e => simp [newHTTPClientCheck]
  · intro s hs
    simp [newHTTPClientCheck, hs]

/-- Witness for `C10_httpTunnel` at concrete inputs. -/
theorem C10_httpTunnel_witness :
    newHTTPClientCheck (.ok "404 Not Found") =
      .failed ("unexpected HTTP response: " ++ "404 Not Found") ∧
    newHTTPClientCheck (.ok connected) = .proceedHandshake := by
  refine ⟨(C10_httpTunnel (.ok "404 Not Found")).2 "404 Not Found"
    (by decide), ?_⟩
  exact (C10_httpTunnel (.ok connected)).1.2 rfl

end GeeRpc

namespace GeeRpc

namespace Trace

theorem upd_self {α : Type} (f : Nat → α) (k : Nat) (v : α) : upd f k v k = v := by
  simp [upd]

theorem upd_ne {α : Type} (f : Nat → α) (k : Nat) (v : α) {x : Nat}
    (h : x ≠ k) : upd f k v x = f x := by
  simp [upd, h]

theorem pLookup_eq_none_of_keyLt {p : List (Nat × Nat)} {n : Nat}
    (h : ∀ e ∈ p, e.1 < n) : pLookup p n = none := by
  rw [pLookup_eq_none]
  intro e he
  exact Nat.ne_of_lt (h e he)


/-- With pairwise-distinct keys and every entry's value mapping back to its
key under `f`, iterating over the list touches a given value `c` exactly once
if `(f c, c)` is an entry and never otherwise. -/
theorem countP_value {p : List (Nat × Nat)} {f : Nat → Nat}
    (hpw : p.Pairwise (fun a b => a.1 ≠ b.1))
    (hcs : ∀ e ∈ p, f e.2 = e.1) (c : Nat) :
    p.countP (fun e => e.2 == c) = if (f c, c) ∈ p then 1 else 0 := by
  induction p with
  | nil => simp
  | cons e t ih =>
    obtain ⟨hpw1, hpw2⟩ := List.pairwise_cons.1 hpw
    have hfe : f e.2 = e.1 := hcs e (List.mem_cons_self e t)
    have hct : ∀ x ∈ t, f x.2 = x.1 := fun x hx =>
      hcs x (List.mem_cons_of_mem _ hx)
    rw [List.countP_cons, ih hpw2 hct]
    by_cases hc : e.2 = c
    · have hmem : (f c, c) = e := by
        rw [← hc, hfe]
      have hnt : (f c, c) ∉ t := by
        intro hin
        exact hpw1 _ hin (by rw [← hmem]) |>.elim
      have h1 : (f c, c) ∈ e :: t := by
        rw [hmem]
        exact List.mem_cons_self e t
      rw [if_neg hnt, if_pos h1]
      simp [hc]
    · have hne : (f c, c) ≠ e := by
        intro h
        exact hc (congrArg Prod.snd h).symm
      simp [List.mem_cons, hne, hc]

theorem inv_areg (g : GState) (c : Nat) (hv : valid g (Act.areg c) = true)
    (hi : Inv g) (hseq : g.seq + 1 < U64) : Inv (step g (Act.areg c)) := by
  rw [valid] at hv
  simp only [Bool.and_eq_true, beq_iff_eq] at hv
  obtain ⟨hr0, hsh⟩ := hv
  obtain ⟨hd0, hrb0, hnp0⟩ := hi.phase0 c hr0
  rw [step]
  by_cases hflag : (g.closing || g.shutdown) = true
  · rw [if_pos hflag]
    refine ⟨?_, ?_, ?_, ?_, ?_, ?_, ?_, ?_, ?_, ?_, ?_, ?_, ?_⟩
    · exact hi.keyLt
    · exact hi.keyPW
    ·
      dsimp only
      intro e he
      rw [upd_ne _ _ _ (hnp0 e he)]
      exact hi.entries e he
    ·
      dsimp only
      intro d hd
      by_cases hdc : d = c
      · subst hdc
        rw [upd_self] at hd
        exact absurd hd (by decide)
      · rw [upd_ne _ _ _ hdc] at hd
        exact hi.seqLt d hd
    ·
      dsimp only
      intro d1 d2 h1 h2 hcs
      by_cases h1c : d1 = c
      · subst h1c
        rw [upd_self] at h1
        exact absurd h1 (by decide)
      · by_cases h2c : d2 = c
        · subst h2c
          rw [upd_self] at h2
          exact absurd h2 (by decide)
        · rw [upd_ne _ _ _ h1c] at h1
          rw [upd_ne _ _ _ h2c] at h2
          exact hi.seqInj d1 d2 h1 h2 hcs
    ·
      dsimp only
      intro d hd
      rw [hsh] at hd
      exact Option.noConfusion hd
    ·
      dsimp only
      intro d hd
      by_cases hdc : d = c
      · subst hdc
        rw [upd_self] at hd
        exact absurd hd (by decide)
      · rw [upd_ne _ _ _ hdc] at hd
        exact hi.regSend d hd
    ·
      dsimp only
      intro ht d
      by_cases hdc : d = c
      · subst hdc
        rw [upd_self]
        decide
      · rw [upd_ne _ _ _ hdc]
        exact hi.termNoWrite ht d
    · exact hi.shutTerm
    · exact hi.termRecv
    ·
      dsimp only
      intro d hd
      by_cases hdc : d = c
      · subst hdc
        rw [upd_self] at hd
        exact absurd hd (by decide)
      · rw [upd_ne _ _ _ hdc] at hd
        obtain ⟨a1, a2, a3⟩ := hi.phase0 d hd
        exact ⟨by rw [upd_ne _ _ _ hdc]; exact a1, a2, a3⟩
    ·
      dsimp only
      intro d hd
      by_cases hdc : d = c
      · subst hdc
        refine ⟨?_, hrb0, hnp0⟩
        rw [upd_self, hd0]
      · rw [upd_ne _ _ _ hdc] at hd
        obtain ⟨a1, a2, a3⟩ := hi.phase1 d hd
        exact ⟨by rw [upd_ne _ _ _ hdc]; exact a1, a2, a3⟩
    ·
      dsimp only
      intro d hd
      by_cases hdc : d = c
      · subst hdc
        rw [upd_self] at hd
        exact absurd hd (by decide)
      · rw [upd_ne _ _ _ hdc] at hd
        rcases hi.phase2 d hd with ⟨a1, a2, a3⟩ | ⟨a1, a2, a3⟩ | ⟨a1, a2, a3⟩
        · exact Or.inl ⟨a1, a2, by rw [upd_ne _ _ _ hdc]; exact a3⟩
        · exact Or.inr (Or.inl ⟨a1, a2, by rw [upd_ne _ _ _ hdc]; exact a3⟩)
        · exact Or.inr (Or.inr ⟨a1, a2, by rw [upd_ne _ _ _ hdc]; exact a3⟩)
  · rw [if_neg hflag]
    simp only [Bool.or_eq_true, not_or, Bool.not_eq_true] at hflag
    obtain ⟨hcl, hsd⟩ := hflag
    have htd : g.termDone = false := by
      rw [← hi.shutTerm]
      exact hsd
    have hpend : pInsert g.pending g.seq c = (g.seq, c) :: g.pending := by
      rw [pInsert,
        pRemove_eq_of_lookup_none (pLookup_eq_none_of_keyLt hi.keyLt)]
    rw [hpend, Nat.mod_eq_of_lt hseq]
    refine ⟨?_, ?_, ?_, ?_, ?_, ?_, ?_, ?_, ?_, ?_, ?_, ?_, ?_⟩
    ·
      dsimp only
      intro e he
      rcases List.mem_cons.1 he with rfl | he
      · exact Nat.lt_succ_self _
      · have := hi.keyLt e he
        omega
    ·
      dsimp only
      refine List.pairwise_cons.2 ⟨?_, hi.keyPW⟩
      intro b hb
      have := hi.keyLt b hb
      dsimp only
      omega
    ·
      dsimp only
      intro e he
      rcases List.mem_cons.1 he with rfl | he
      · dsimp only
        rw [upd_self, upd_self]
        exact ⟨by omega, rfl⟩
      · have hec := hnp0 e he
        obtain ⟨a1, a2⟩ := hi.entries e he
        rw [upd_ne _ _ _ hec, upd_ne _ _ _ hec]
        exact ⟨a1, a2⟩
    ·
      dsimp only
      intro d hd
      by_cases hdc : d = c
      · subst hdc
        rw [upd_self]
        exact Nat.lt_succ_self _
      · rw [upd_ne _ _ _ hdc] at hd
        rw [upd_ne _ _ _ hdc]
        have := hi.seqLt d hd
        omega
    ·
      dsimp only
      intro d1 d2 h1 h2 hcs
      by_cases h1c : d1 = c
      · by_cases h2c : d2 = c
        · rw [h1c, h2c]
        · subst h1c
          rw [upd_ne _ _ _ h2c] at h2 hcs
          rw [upd_self] at hcs
          have := hi.seqLt d2 h2
          omega
      · rw [upd_ne _ _ _ h1c] at h1 hcs
        by_cases h2c : d2 = c
        · subst h2c
          rw [upd_self] at hcs
          have := hi.seqLt d1 h1
          omega
        · rw [upd_ne _ _ _ h2c] at h2 hcs
          exact hi.seqInj d1 d2 h1 h2 hcs
    ·
      dsimp only
      intro d hd
      simp only [Option.some.injEq] at hd
      subst hd
      rw [upd_self]
    ·
      dsimp only
      intro d hd
      by_cases hdc : d = c
      · rw [hdc]
      · rw [upd_ne _ _ _ hdc] at hd
        have h2 := hi.regSend d hd
        rw [hsh] at h2
        exact Option.noConfusion h2
    ·
      dsimp only
      intro ht
      rw [htd] at ht
      exact Bool.noConfusion ht
    · exact hi.shutTerm
    ·
      dsimp only
      intro ht
      rw [htd] at ht
      exact Bool.noConfusion ht
    ·
      dsimp only
      intro d hd
      by_cases hdc : d = c
      · subst hdc
        rw [upd_self] at hd
        exact absurd hd (by decide)
      · rw [upd_ne _ _ _ hdc] at hd
        obtain ⟨a1, a2, a3⟩ := hi.phase0 d hd
        refine ⟨a1, a2, ?_⟩
        intro e he
        rcases List.mem_cons.1 he with rfl | he
        · exact fun h => hdc h.symm
        · exact a3 e he
    ·
      dsimp only
      intro d hd
      by_cases hdc : d = c
      · subst hdc
        rw [upd_self] at hd
        exact absurd hd (by decide)
      · rw [upd_ne _ _ _ hdc] at hd
        obtain ⟨a1, a2, a3⟩ := hi.phase1 d hd
        refine ⟨a1, a2, ?_⟩
        intro e he
        rcases List.mem_cons.1 he with rfl | he
        · exact fun h => hdc h.symm
        · exact a3 e he
    ·
      dsimp only
      intro d hd
      by_cases hdc : d = c
      · subst hdc
        refine Or.inl ⟨?_, hrb0, ?_⟩
        · rw [upd_self]
          exact List.mem_cons_self _ _
        · rw [htd, hd0]
          simp
      · rw [upd_ne _ _ _ hdc] at hd
        have hmem_iff :
            ((upd g.callSeq c g.seq d, d) ∈ (g.seq, c) :: g.pending) ↔
              ((g.callSeq d, d) ∈ g.pending) := by
          rw [upd_ne _ _ _ hdc]
          constructor
          · intro h
            rcases List.mem_cons.1 h with h | h
            · exact absurd (congrArg Prod.snd h) hdc
            · exact h
          · exact List.mem_cons_of_mem _
        rcases hi.phase2 d hd with ⟨a1, a2, a3⟩ | ⟨a1, a2, a3⟩ | ⟨a1, a2, a3⟩
        · exact Or.inl ⟨hmem_iff.2 a1, a2, a3⟩
        · exact Or.inr (Or.inl ⟨fun h => a1 (hmem_iff.1 h), a2, a3⟩)
        · exact Or.inr (Or.inr ⟨fun h => a1 (hmem_iff.1 h), a2, a3⟩)

end Trace

end GeeRpc

namespace GeeRpc

namespace Trace

theorem inv_init : Inv initG := by
  constructor <;> simp [initG]

theorem inv_awrite (g : GState) (c : Nat) (ok : Bool)
    (hv : valid g (Act.awrite c ok) = true) (hi : Inv g) :
    Inv (step g (Act.awrite c ok)) := by
  rw [valid] at hv
  simp only [beq_iff_eq] at hv
  have hr2 : g.regState c = 2 := hi.sendReg c hv
  have htd : g.termDone = false := by
    cases h : g.termDone with
    | false => rfl
    | true => exact absurd hr2 (hi.termNoWrite h c)
  have hmain :
      Inv { g with sendingHeld := none, regState := upd g.regState c 3 } := by
    refine ⟨hi.keyLt, hi.keyPW, ?_, ?_, ?_, ?_, ?_, ?_, hi.shutTerm,
      hi.termRecv, ?_, ?_, ?_⟩
    · dsimp only
      intro e he
      obtain ⟨a1, a2⟩ := hi.entries e he
      by_cases hec : e.2 = c
      · refine ⟨?_, a2⟩
        rw [hec, upd_self]
        omega
      · rw [upd_ne _ _ _ hec]
        exact ⟨a1, a2⟩
    · dsimp only
      intro d hd
      by_cases hdc : d = c
      · subst hdc
        exact hi.seqLt d (by rw [hr2])
      · rw [upd_ne _ _ _ hdc] at hd
        exact hi.seqLt d hd
    · dsimp only
      intro d1 d2 h1 h2 hcs
      have h1' : 2 ≤ g.regState d1 := by
        by_cases h1c : d1 = c
        · rw [h1c, hr2]
        · rwa [upd_ne _ _ _ h1c] at h1
      have h2' : 2 ≤ g.regState d2 := by
        by_cases h2c : d2 = c
        · rw [h2c, hr2]
        · rwa [upd_ne _ _ _ h2c] at h2
      exact hi.seqInj d1 d2 h1' h2' hcs
    · dsimp only
      intro d hd
      exact Option.noConfusion hd
    · dsimp only
      intro d hd
      by_cases hdc : d = c
      · subst hdc
        rw [upd_self] at hd
        exact absurd hd (by decide)
      · rw [upd_ne _ _ _ hdc] at hd
        have h2 := hi.regSend d hd
        rw [hv] at h2
        simp only [Option.some.injEq] at h2
        exact absurd h2.symm hdc
    · dsimp only
      intro ht
      rw [htd] at ht
      exact Bool.noConfusion ht
    · dsimp only
      intro d hd
      by_cases hdc : d = c
      · subst hdc
        rw [upd_self] at hd
        exact absurd hd (by decide)
      · rw [upd_ne _ _ _ hdc] at hd
        exact hi.phase0 d hd
    · dsimp only
      intro d hd
      by_cases hdc : d = c
      · subst hdc
        rw [upd_self] at hd
        exact absurd hd (by decide)
      · rw [upd_ne _ _ _ hdc] at hd
        exact hi.phase1 d hd
    · dsimp only
      intro d hd
      have hd' : 2 ≤ g.regState d := by
        by_cases hdc : d = c
        · rw [hdc, hr2]
        · rwa [upd_ne _ _ _ hdc] at hd
      exact hi.phase2 d hd'
  rw [step]
  cases ok with
  | true => exact hmain
  | false =>
    rw [if_neg (by decide)]
    rcases hl : pLookup g.pending (g.callSeq c) with _ | b
    · dsimp only
      rw [pRemove_eq_of_lookup_none hl]
      exact hmain
    · have hbm : (g.callSeq c, b) ∈ g.pending := pLookup_some_mem hl
      have hb2 : 2 ≤ g.regState b := (hi.entries _ hbm).1
      have hbs : g.callSeq b = g.callSeq c := (hi.entries _ hbm).2
      have hbc : b = c := hi.seqInj b c hb2 (by rw [hr2]) hbs
      subst hbc
      dsimp only
      have hccb : (g.callSeq b, b) ∈ g.pending := hbm
      rcases hi.phase2 b hb2 with ⟨a1, a2, a3⟩ | ⟨a1, a2, a3⟩ | ⟨a1, a2, a3⟩
      · have hdc0 : g.doneCount b = 0 := by
          rw [htd] at a3
          simpa using a3
        refine ⟨?_, ?_, ?_, ?_, ?_, ?_, ?_, ?_, hi.shutTerm, hi.termRecv,
          ?_, ?_, ?_⟩
        · dsimp only
          intro e he
          exact hi.keyLt e (mem_pRemove.1 he).1
        · exact hi.keyPW.sublist (List.filter_sublist _)
        · dsimp only
          intro e he
          have he' := (mem_pRemove.1 he).1
          obtain ⟨b1, b2⟩ := hi.entries e he'
          by_cases hec : e.2 = b
          · refine ⟨?_, b2⟩
            rw [hec, upd_self]
            omega
          · rw [upd_ne _ _ _ hec]
            exact ⟨b1, b2⟩
        · dsimp only
          intro d hd
          by_cases hdc : d = b
          · subst hdc
            exact hi.seqLt d (by rw [hr2])
          · rw [upd_ne _ _ _ hdc] at hd
            exact hi.seqLt d hd
        · dsimp only
          intro d1 d2 h1 h2 hcs
          have h1' : 2 ≤ g.regState d1 := by
            by_cases h1c : d1 = b
            · rw [h1c, hr2]
            · rwa [upd_ne _ _ _ h1c] at h1
          have h2' : 2 ≤ g.regState d2 := by
            by_cases h2c : d2 = b
            · rw [h2c, hr2]
            · rwa [upd_ne _ _ _ h2c] at h2
          exact hi.seqInj d1 d2 h1' h2' hcs
        · dsimp only
          intro d hd
          exact Option.noConfusion hd
        · dsimp only
          intro d hd
          by_cases hdc : d = b
          · subst hdc
            rw [upd_self] at hd
            exact absurd hd (by decide)
          · rw [upd_ne _ _ _ hdc] at hd
            have h2 := hi.regSend d hd
            rw [hv] at h2
            simp only [Option.some.injEq] at h2
            exact absurd h2.symm hdc
        · dsimp only
          intro ht
          rw [htd] at ht
          exact Bool.noConfusion ht
        · dsimp only
          intro d hd
          by_cases hdc : d = b
          · subst hdc
            rw [upd_self] at hd
            exact absurd hd (by decide)
          · rw [upd_ne _ _ _ hdc] at hd
            obtain ⟨b1, b2, b3⟩ := hi.phase0 d hd
            refine ⟨by rw [upd_ne _ _ _ hdc]; exact b1, b2, ?_⟩
            intro e he
            exact b3 e (mem_pRemove.1 he).1
        · dsimp only
          intro d hd
          by_cases hdc : d = b
          · subst hdc
            rw [upd_self] at hd
            exact absurd hd (by decide)
          · rw [upd_ne _ _ _ hdc] at hd
            obtain ⟨b1, b2, b3⟩ := hi.phase1 d hd
            refine ⟨by rw [upd_ne _ _ _ hdc]; exact b1, b2, ?_⟩
            intro e he
            exact b3 e (mem_pRemove.1 he).1
        · dsimp only
          intro d hd
          by_cases hdc : d = b
          · subst hdc
            refine Or.inr (Or.inr ⟨?_, a2, ?_⟩)
            · intro h
              exact (mem_pRemove.1 h).2 rfl
            · rw [upd_self, hdc0]
          · have hd' : 2 ≤ g.regState d := by
              rwa [upd_ne _ _ _ hdc] at hd
            have hkey : g.callSeq d ≠ g.callSeq b := fun h =>
              hdc (hi.seqInj d b hd' hb2 h)
            have hmem_iff :
                ((g.callSeq d, d) ∈ pRemove g.pending (g.callSeq b)) ↔
                  ((g.callSeq d, d) ∈ g.pending) :=
              ⟨fun h => (mem_pRemove.1 h).1,
               fun h => mem_pRemove.2 ⟨h, hkey⟩⟩
            rcases hi.phase2 d hd' with ⟨b1, b2, b3⟩ | ⟨b1, b2, b3⟩ |
              ⟨b1, b2, b3⟩
            · exact Or.inl ⟨hmem_iff.2 b1, b2,
                by rw [upd_ne _ _ _ hdc]; exact b3⟩
            · exact Or.inr (Or.inl ⟨fun h => b1 (hmem_iff.1 h), b2,
                by rw [upd_ne _ _ _ hdc]; exact b3⟩)
            · exact Or.inr (Or.inr ⟨fun h => b1 (hmem_iff.1 h), b2,
                by rw [upd_ne _ _ _ hdc]; exact b3⟩)
      · exact absurd hccb a1
      · exact absurd hccb a1

end Trace

end GeeRpc

namespace GeeRpc

namespace Trace

theorem inv_ahdrfail (g : GState) (hi : Inv g) : Inv (step g Act.ahdrfail) := by
  rw [step]
  exact ⟨hi.keyLt, hi.keyPW, hi.entries, hi.seqLt, hi.seqInj, hi.sendReg,
    hi.regSend, hi.termNoWrite, hi.shutTerm, fun _ => rfl, hi.phase0,
    hi.phase1, hi.phase2⟩

theorem inv_aclose (g : GState) (hi : Inv g) : Inv (step g Act.aclose) := by
  rw [step]
  by_cases h : g.closing = true
  · rw [if_pos h]
    exact hi
  · rw [if_neg h]
    exact ⟨hi.keyLt, hi.keyPW, hi.entries, hi.seqLt, hi.seqInj, hi.sendReg,
      hi.regSend, hi.termNoWrite, hi.shutTerm, hi.termRecv, hi.phase0,
      hi.phase1, hi.phase2⟩

theorem inv_arecv (g : GState) (s : Nat) (re bodyOk : Bool)
    (hv : valid g (Act.arecv s re bodyOk) = true) (hi : Inv g) :
    Inv (step g (Act.arecv s re bodyOk)) := by
  rw [valid] at hv
  have htd : g.termDone = false := by
    cases h : g.termDone with
    | false => rfl
    | true =>
      have := hi.termRecv h
      rw [hv] at this
      exact Bool.noConfusion this
  rw [step]
  rcases hl : pLookup g.pending s with _ | b
  · dsimp only
    rw [pRemove_eq_of_lookup_none hl]
    refine ⟨hi.keyLt, hi.keyPW, hi.entries, hi.seqLt, hi.seqInj, hi.sendReg,
      hi.regSend, hi.termNoWrite, hi.shutTerm, ?_, hi.phase0, hi.phase1,
      hi.phase2⟩
    dsimp only
    intro ht
    rw [htd] at ht
    exact Bool.noConfusion ht
  · have hbm : (s, b) ∈ g.pending := pLookup_some_mem hl
    have hb2 : 2 ≤ g.regState b := (hi.entries _ hbm).1
    have hbs : g.callSeq b = s := (hi.entries _ hbm).2
    have hccb : (g.callSeq b, b) ∈ g.pending := by
      rw [hbs]
      exact hbm
    rcases hi.phase2 b hb2 with ⟨a1, a2, a3⟩ | ⟨a1, a2, a3⟩ | ⟨a1, a2, a3⟩
    · have hdc0 : g.doneCount b = 0 := by
        rw [htd] at a3
        simpa using a3
      refine ⟨?_, ?_, ?_, hi.seqLt, hi.seqInj, hi.sendReg, hi.regSend,
        hi.termNoWrite, hi.shutTerm, ?_, ?_, ?_, ?_⟩
      · dsimp only
        intro e he
        exact hi.keyLt e (mem_pRemove.1 he).1
      · exact hi.keyPW.sublist (List.filter_sublist _)
      · dsimp only
        intro e he
        exact hi.entries e (mem_pRemove.1 he).1
      · dsimp only
        intro ht
        rw [htd] at ht
        exact Bool.noConfusion ht
      · dsimp only
        intro d hd
        have hdb : d ≠ b := by
          intro h
          rw [h] at hd
          omega
        obtain ⟨b1, b2, b3⟩ := hi.phase0 d hd
        refine ⟨by rw [upd_ne _ _ _ hdb]; exact b1, b2, ?_⟩
        intro e he
        exact b3 e (mem_pRemove.1 he).1
      · dsimp only
        intro d hd
        have hdb : d ≠ b := by
          intro h
          rw [h] at hd
          omega
        obtain ⟨b1, b2, b3⟩ := hi.phase1 d hd
        refine ⟨by rw [upd_ne _ _ _ hdb]; exact b1, b2, ?_⟩
        intro e he
        exact b3 e (mem_pRemove.1 he).1
      · dsimp only
        intro d hd
        by_cases hdb : d = b
        · subst hdb
          refine Or.inr (Or.inr ⟨?_, a2, ?_⟩)
          · intro h
            exact (mem_pRemove.1 h).2 hbs
          · rw [upd_self, hdc0]
        · have hkey : g.callSeq d ≠ s := by
            intro h
            exact hdb (hi.seqInj d b hd hb2 (by rw [h, hbs]))
          have hmem_iff :
              ((g.callSeq d, d) ∈ pRemove g.pending s) ↔
                ((g.callSeq d, d) ∈ g.pending) :=
            ⟨fun h => (mem_pRemove.1 h).1,
             fun h => mem_pRemove.2 ⟨h, hkey⟩⟩
          rcases hi.phase2 d hd with ⟨b1, b2, b3⟩ | ⟨b1, b2, b3⟩ |
            ⟨b1, b2, b3⟩
          · exact Or.inl ⟨hmem_iff.2 b1, b2,
              by rw [upd_ne _ _ _ hdb]; exact b3⟩
          · exact Or.inr (Or.inl ⟨fun h => b1 (hmem_iff.1 h), b2,
              by rw [upd_ne _ _ _ hdb]; exact b3⟩)
          · exact Or.inr (Or.inr ⟨fun h => b1 (hmem_iff.1 h), b2,
              by rw [upd_ne _ _ _ hdb]; exact b3⟩)
    · exact absurd hccb a1
    · exact absurd hccb a1

theorem inv_aterm (g : GState) (hv : valid g Act.aterm = true) (hi : Inv g) :
    Inv (step g Act.aterm) := by
  rw [valid] at hv
  simp only [Bool.and_eq_true, Bool.not_eq_true', beq_iff_eq] at hv
  obtain ⟨⟨hra, htd⟩, hsh⟩ := hv
  have hcount : ∀ c, g.pending.countP (fun e => e.2 == c) =
      if (g.callSeq c, c) ∈ g.pending then 1 else 0 :=
    countP_value hi.keyPW (fun e he => (hi.entries e he).2)
  rw [step]
  refine ⟨hi.keyLt, hi.keyPW, hi.entries, hi.seqLt, hi.seqInj, ?_, ?_, ?_,
    rfl, ?_, ?_, ?_, ?_⟩
  · dsimp only
    intro d hd
    rw [hsh] at hd
    exact Option.noConfusion hd
  · dsimp only
    intro d hd
    have h2 := hi.regSend d hd
    rw [hsh] at h2
    exact Option.noConfusion h2
  · dsimp only
    intro _ d hd
    have h2 := hi.regSend d hd
    rw [hsh] at h2
    exact Option.noConfusion h2
  · dsimp only
    intro _
    exact hra
  · dsimp only
    intro d hd
    obtain ⟨b1, b2, b3⟩ := hi.phase0 d hd
    refine ⟨?_, b2, b3⟩
    rw [hcount d, if_neg (fun h => b3 _ h rfl), b1]
  · dsimp only
    intro d hd
    obtain ⟨b1, b2, b3⟩ := hi.phase1 d hd
    refine ⟨?_, b2, b3⟩
    rw [hcount d, if_neg (fun h => b3 _ h rfl), b1]
  · dsimp only
    intro d hd
    rcases hi.phase2 d hd with ⟨b1, b2, b3⟩ | ⟨b1, b2, b3⟩ | ⟨b1, b2, b3⟩
    · have b3' : g.doneCount d = 0 := by
        rw [htd] at b3
        simpa using b3
      refine Or.inl ⟨b1, b2, ?_⟩
      rw [hcount d, if_pos b1, b3']
      simp
    · refine Or.inr (Or.inl ⟨b1, b2, ?_⟩)
      rw [hcount d, if_neg b1]
      omega
    · refine Or.inr (Or.inr ⟨b1, b2, ?_⟩)
      rw [hcount d, if_neg b1]
      omega

theorem inv_acancel (g : GState) (c : Nat)
    (_hv : valid g (Act.acancel c) = true) (hi : Inv g) :
    Inv (step g (Act.acancel c)) := by
  rw [step]
  rcases hl : pLookup g.pending (g.callSeq c) with _ | b
  · dsimp only
    rw [pRemove_eq_of_lookup_none hl]
    exact ⟨hi.keyLt, hi.keyPW, hi.entries, hi.seqLt, hi.seqInj, hi.sendReg,
      hi.regSend, hi.termNoWrite, hi.shutTerm, hi.termRecv, hi.phase0,
      hi.phase1, hi.phase2⟩
  · have hbm : (g.callSeq c, b) ∈ g.pending := pLookup_some_mem hl
    have hb2 : 2 ≤ g.regState b := (hi.entries _ hbm).1
    have hbs : g.callSeq b = g.callSeq c := (hi.entries _ hbm).2
    have hccb : (g.callSeq b, b) ∈ g.pending := by
      rw [hbs]
      exact hbm
    rcases hi.phase2 b hb2 with ⟨a1, a2, a3⟩ | ⟨a1, a2, a3⟩ | ⟨a1, a2, a3⟩
    · refine ⟨?_, ?_, ?_, hi.seqLt, hi.seqInj, hi.sendReg, hi.regSend,
        hi.termNoWrite, hi.shutTerm, hi.termRecv, ?_, ?_, ?_⟩
      · dsimp only
        intro e he
        exact hi.keyLt e (mem_pRemove.1 he).1
      · exact hi.keyPW.sublist (List.filter_sublist _)
      · dsimp only
        intro e he
        exact hi.entries e (mem_pRemove.1 he).1
      · dsimp only
        intro d hd
        have hdb : d ≠ b := by
          intro h
          rw [h] at hd
          omega
        obtain ⟨b1, b2, b3⟩ := hi.phase0 d hd
        refine ⟨b1, by rw [upd_ne _ _ _ hdb]; exact b2, ?_⟩
        intro e he
        exact b3 e (mem_pRemove.1 he).1
      · dsimp only
        intro d hd
        have hdb : d ≠ b := by
          intro h
          rw [h] at hd
          omega
        obtain ⟨b1, b2, b3⟩ := hi.phase1 d hd
        refine ⟨b1, by rw [upd_ne _ _ _ hdb]; exact b2, ?_⟩
        intro e he
        exact b3 e (mem_pRemove.1 he).1
      · dsimp only
        intro d hd
        by_cases hdb : d = b
        · subst hdb
          refine Or.inr (Or.inl ⟨?_, by rw [upd_self], ?_⟩)
          · intro h
            exact (mem_pRemove.1 h).2 hbs
          · rw [a3]
            cases g.termDone <;> simp
        · have hkey : g.callSeq d ≠ g.callSeq c := by
            intro h
            exact hdb (hi.seqInj d b hd hb2 (by rw [h, hbs]))
          have hmem_iff :
              ((g.callSeq d, d) ∈ pRemove g.pending (g.callSeq c)) ↔
                ((g.callSeq d, d) ∈ g.pending) :=
            ⟨fun h => (mem_pRemove.1 h).1,
             fun h => mem_pRemove.2 ⟨h, hkey⟩⟩
          rcases hi.phase2 d hd with ⟨b1, b2, b3⟩ | ⟨b1, b2, b3⟩ |
            ⟨b1, b2, b3⟩
          · exact Or.inl ⟨hmem_iff.2 b1,
              by rw [upd_ne _ _ _ hdb]; exact b2, b3⟩
          · exact Or.inr (Or.inl ⟨fun h => b1 (hmem_iff.1 h),
              by rw [upd_ne _ _ _ hdb]; exact b2, b3⟩)
          · exact Or.inr (Or.inr ⟨fun h => b1 (hmem_iff.1 h),
              by rw [upd_ne _ _ _ hdb]; exact b2, b3⟩)
    · exact absurd hccb a1
    · exact absurd hccb a1

theorem inv_step (g : GState) (a : Act) (hi : Inv g)
    (hv : valid g a = true) (hseq : g.seq + 1 < U64) : Inv (step g a) := by
  cases a with
  | areg c => exact inv_areg g c hv hi hseq
  | awrite c ok => exact inv_awrite g c ok hv hi
  | arecv s re bodyOk => exact inv_arecv g s re bodyOk hv hi
  | ahdrfail => exact inv_ahdrfail g hi
  | aterm => exact inv_aterm g hv hi
  | acancel c => exact inv_acancel g c hv hi
  | aclose => exact inv_aclose g hi

/-- One atomic action advances the sequence counter by at most one. -/
theorem step_seq_le (g : GState) (a : Act) : (step g a).seq ≤ g.seq + 1 := by
  cases a with
  | areg c =>
    rw [step]
    by_cases hflag : (g.closing || g.shutdown) = true
    · rw [if_pos hflag]
      exact Nat.le_succ _
    · rw [if_neg hflag]
      exact Nat.mod_le _ _
  | awrite c ok =>
    rw [step]
    cases ok with
    | true =>
      rw [if_pos rfl]
      exact Nat.le_succ _
    | false =>
      rw [if_neg (by decide)]
      rcases hl : pLookup g.pending (g.callSeq c) with _ | b
      · exact Nat.le_succ _
      · exact Nat.le_succ _
  | arecv s re bodyOk =>
    rw [step]
    rcases hl : pLookup g.pending s with _ | b
    · exact Nat.le_succ _
    · exact Nat.le_succ _
  | ahdrfail =>
    rw [step]
    exact Nat.le_succ _
  | aterm =>
    rw [step]
    exact Nat.le_succ _
  | acancel c =>
    rw [step]
    rcases hl : pLookup g.pending (g.callSeq c) with _ | b
    · exact Nat.le_succ _
    · exact Nat.le_succ _
  | aclose =>
    rw [step]
    by_cases h : g.closing = true
    · rw [if_pos h]
      exact Nat.le_succ _
    · rw [if_neg h]
      exact Nat.le_succ _

/-- The invariant holds after any valid interleaving short enough that the
64-bit sequence counter cannot wrap. -/
theorem inv_run (as : List Act) (g : GState) (hi : Inv g)
    (hv : ValidFrom g as = true) (hlen : g.seq + as.length < U64) :
    Inv (run g as) := by
  induction as generalizing g with
  | nil => exact hi
  | cons a rest ih =>
    rw [ValidFrom, Bool.and_eq_true] at hv
    simp only [List.length_cons] at hlen
    have hseq : g.seq + 1 < U64 := by omega
    have hle := step_seq_le g a
    apply ih (step g a) (inv_step g a hi hv.1 hseq) hv.2
    omega

end Trace

end GeeRpc

namespace GeeRpc

/-- C1, counterexample: the claim says every Call receives exactly one
completion signal on its completion queue — never zero — even under
cancellation and connection failure.  In the interleaving model, call 0 is
registered and written successfully, then its cancellation token fires
(removing it from the registry), then the connection fails and
`terminateCalls` runs.  The run is a valid interleaving, it ends with the
engine fully terminated, and call 0's completion queue received ZERO
signals: its `invoke` returned the cancellation error instead. -/
theorem C1_counterexample :
    Trace.ValidFrom Trace.initG
        [Trace.Act.areg 0, Trace.Act.awrite 0 true, Trace.Act.acancel 0,
         Trace.Act.ahdrfail, Trace.Act.aterm] = true ∧
    (Trace.run Trace.initG
        [Trace.Act.areg 0, Trace.Act.awrite 0 true, Trace.Act.acancel 0,
         Trace.Act.ahdrfail, Trace.Act.aterm]).termDone = true ∧
    (Trace.run Trace.initG
        [Trace.Act.areg 0, Trace.Act.awrite 0 true, Trace.Act.acancel 0,
         Trace.Act.ahdrfail, Trace.Act.aterm]).doneCount 0 = 0 := by
  exact ⟨by decide, by decide, by decide⟩

/-- C1 (amended): over every valid interleaving of concurrent sends, receive
iterations, cancellations, close and termination that is shorter than
`2 ^ 64` actions — so the `uint64` sequence counter cannot wrap — (a) every
Call receives AT MOST one completion signal on its queue, and (b) once
`terminateCalls` has run, every Call that was submitted (registration
attempted) and was not removed from the registry by a cancellation has
received exactly one signal.  A Call removed by cancellation may end with
zero signals — its `invoke` returns the cancellation error rather than
consuming a queue signal.  (At the wrap the reused sequence key overwrites a
pending entry and the overwritten, non-cancelled call is never signalled;
the wrap itself is exhibited in the `registerCall` analysis of C2.) -/
theorem C1_completion_amended (tr : List Trace.Act)
    (hv : Trace.ValidFrom Trace.initG tr = true) (hlen : tr.length < U64) :
    (∀ c, (Trace.run Trace.initG tr).doneCount c ≤ 1) ∧
    ((Trace.run Trace.initG tr).termDone = true →
      ∀ c, 1 ≤ (Trace.run Trace.initG tr).regState c →
        (Trace.run Trace.initG tr).removedByCancel c = false →
        (Trace.run Trace.initG tr).doneCount c = 1) := by
  have hi := Trace.inv_run tr Trace.initG Trace.inv_init hv
    (by simpa [Trace.initG] using hlen)
  constructor
  · intro c
    by_cases h0 : (Trace.run Trace.initG tr).regState c = 0
    · rw [(hi.phase0 c h0).1]
      omega
    · by_cases h1 : (Trace.run Trace.initG tr).regState c = 1
      · rw [(hi.phase1 c h1).1]
      · have h2 : 2 ≤ (Trace.run Trace.initG tr).regState c := by omega
        rcases hi.phase2 c h2 with ⟨-, -, hd⟩ | ⟨-, -, hd⟩ | ⟨-, -, hd⟩
        · rw [hd]
          split <;> omega
        · exact hd
        · rw [hd]
  · intro ht c hreg hrbc
    by_cases h1 : (Trace.run Trace.initG tr).regState c = 1
    · exact (hi.phase1 c h1).1
    · have h2 : 2 ≤ (Trace.run Trace.initG tr).regState c := by omega
      rcases hi.phase2 c h2 with ⟨-, -, hd⟩ | ⟨-, hr, -⟩ | ⟨-, -, hd⟩
      · rw [hd, if_pos ht]
      · rw [hr] at hrbc
        exact Bool.noConfusion hrbc
      · exact hd

/-- Witness for `C1_completion_amended`: one registered call, a successful
write, a header-read failure and `terminateCalls` — the call's queue gets
exactly one signal. -/
theorem C1_completion_amended_witness :
    (Trace.run Trace.initG
        [Trace.Act.areg 0, Trace.Act.awrite 0 true, Trace.Act.ahdrfail,
         Trace.Act.aterm]).doneCount 0 = 1 ∧
    (Trace.run Trace.initG
        [Trace.Act.areg 0, Trace.Act.awrite 0 true, Trace.Act.ahdrfail,
         Trace.Act.aterm]).doneCount 0 ≤ 1 := by
  have h := C1_completion_amended
    [Trace.Act.areg 0, Trace.Act.awrite 0 true, Trace.Act.ahdrfail,
     Trace.Act.aterm] (by decide) (by norm_num [U64])
  exact ⟨h.2 (by decide) 0 (by decide) (by decide), h.1 0⟩

end GeeRpc
